import Mathlib

/-!
Shallow embedding of `src/huffman.py`, a Huffman codec over the 27-symbol
alphabet A–Z plus space.

Conventions of the embedding:
* a Python `str` is a `List Char`; a bit-string is a `List Bool`
  (`false` is the bit "0", `true` is the bit "1");
* Python list indexing, including negative indices counting from the end
  and `IndexError`, is modelled by `pyIdx` / `pyGet` / `pySet`;
* a Python exception (IndexError, AttributeError on `None`) is `none`:
  fallible functions return `Option`.
-/

/-- Resolve a Python list index against a list of length `len`: a negative
index counts from the end; `none` models `IndexError`. -/
def pyIdx (len : Nat) (i : Int) : Option Nat :=
  if 0 ≤ i then
    if i < (len : Int) then some i.toNat else none
  else
    if 0 ≤ i + (len : Int) then some (i + (len : Int)).toNat else none

/-- Python `l[i]` (read). -/
def pyGet (l : List α) (i : Int) : Option α :=
  (pyIdx l.length i).bind fun j => l[j]?

/-- Python `l[i] = a` (write), returning the updated list. -/
def pySet (l : List α) (i : Int) (a : α) : Option (List α) :=
  (pyIdx l.length i).map fun j => l.set j a

/-- Modelled from the spec: `Node.py` is imported by `src/huffman.py` but is
not among the repository's source files.  Spec §3 and §9 model `Node` as the
tagged variant Leaf(symbol, weight) / Internal(weight, left, right): a leaf
carries a symbol and no children, an internal node carries exactly two
children and no symbol (the tree is strictly binary).  The weight field is
what `huffman.py` reads through `get_frequency`. -/
inductive Node where
  | leaf (frequency : Nat) (symbol : Char)
  | internal (frequency : Nat) (left : Node) (right : Node)
deriving Repr, DecidableEq

/-- Python `node.get_frequency()`. -/
def Node.get_frequency : Node → Nat
  | .leaf f _ => f
  | .internal f _ _ => f

/-- Python `node.get_symbol()`: `some` on leaves, `none` (Python `None`) on
internal nodes. -/
def Node.get_symbol : Node → Option Char
  | .leaf _ s => some s
  | .internal _ _ _ => none

/-- Python `node.get_left()`: `none` on leaves. -/
def Node.get_left : Node → Option Node
  | .leaf _ _ => none
  | .internal _ l _ => some l

/-- Python `node.get_right()`: `none` on leaves. -/
def Node.get_right : Node → Option Node
  | .leaf _ _ => none
  | .internal _ _ r => some r

/-- Python `str.isalpha` on one character, modelled from the Unicode data
for code points below 256 (every theorem below applies it only there);
code points at or above 256 are treated as non-alphabetic. -/
def pyIsAlpha (c : Char) : Bool :=
  let n := c.toNat
  (65 ≤ n && n ≤ 90) || (97 ≤ n && n ≤ 122) || n == 170 || n == 181 ||
    n == 186 || (192 ≤ n && n ≤ 214) || (216 ≤ n && n ≤ 246) ||
    (248 ≤ n && n ≤ 255)

/-- Python `str.upper` on one character (a list, since ß uppercases to SS),
modelled from the Unicode data for code points below 256; code points at or
above 256 are returned unchanged. -/
def pyUpper (c : Char) : List Char :=
  let n := c.toNat
  if 97 ≤ n && n ≤ 122 then [Char.ofNat (n - 32)]
  else if n == 181 then [Char.ofNat 924]
  else if n == 223 then [Char.ofNat 83, Char.ofNat 83]
  else if 224 ≤ n && n ≤ 254 && n != 247 then [Char.ofNat (n - 32)]
  else if n == 255 then [Char.ofNat 376]
  else [c]

/-- `filter_uppercase_and_spaces` (src/huffman.py:4-10): uppercase the whole
string, keep the characters that are alphabetic or a space. -/
def filter_uppercase_and_spaces (input_string : List Char) : List Char :=
  (input_string.flatMap pyUpper).filter fun ch => pyIsAlpha ch || ch == ' '

/-- The loop of `count_frequencies` (src/huffman.py:21-24): for every
non-space character, `frequencies[ord(ch) - ord("A")] += 1`, with Python
indexing. -/
def count_frequencies_loop : List Char → List Nat → Option (List Nat)
  | [], frequencies => some frequencies
  | ch :: rest, frequencies =>
    if ch = ' ' then count_frequencies_loop rest frequencies
    else
      match pyGet frequencies ((ch.toNat : Int) - 65) with
      | none => none
      | some v =>
        match pySet frequencies ((ch.toNat : Int) - 65) (v + 1) with
        | none => none
        | some frequencies2 => count_frequencies_loop rest frequencies2

/-- `count_frequencies` (src/huffman.py:13-25). -/
def count_frequencies (input_string : List Char) : Option (List Nat) :=
  count_frequencies_loop input_string (List.replicate 26 0)

/-- The letter loop of `initialize_forest` (src/huffman.py:37-40): one leaf
per index with a positive frequency, symbol `chr(i + ord("A"))`.  Python
iterates `i in range(26)`; on the 26-entry tables `count_frequencies`
produces (all theorems below assume length 26) this structural recursion
visits exactly the same indices. -/
def letter_leaves : Nat → List Nat → List Node
  | _, [] => []
  | i, f :: rest =>
    (if 0 < f then [Node.leaf f (Char.ofNat (i + 65))] else []) ++
      letter_leaves (i + 1) rest

/-- `initialize_forest` (src/huffman.py:28-46): the letter leaves, then one
space leaf of weight `max(sum(frequencies), 1)`. -/
def initialize_forest (frequencies : List Nat) : List Node :=
  letter_leaves 0 frequencies ++ [Node.leaf (max frequencies.sum 1) ' ']

/-- The scan of `get_smallest` (src/huffman.py:53-56): running lowest-weight
index, updated only on strictly smaller weight, so the first minimum wins.
`i` is the index of the head of `l` in the full forest, `besti`/`bestw` the
best index seen so far and its weight. -/
def scan_min : List Node → Nat → Nat → Nat → Nat
  | [], _, besti, _ => besti
  | n :: rest, i, besti, bestw =>
    if n.get_frequency < bestw then scan_min rest (i + 1) i n.get_frequency
    else scan_min rest (i + 1) besti bestw

/-- The `smallest_index` computed by `get_smallest` (src/huffman.py:53-56). -/
def smallest_index : List Node → Nat
  | [] => 0
  | n :: rest => scan_min rest 1 0 n.get_frequency

/-- `get_smallest` (src/huffman.py:49-59): remove and return the node at
`smallest_index`; `forest[:i] + forest[i+1:]` is `take i ++ drop (i+1)`.
On an empty forest Python's `forest[0]` raises (`none`). -/
def get_smallest (forest : List Node) : Option (Node × List Node) :=
  match forest[smallest_index forest]? with
  | none => none
  | some n =>
    some (n, forest.take (smallest_index forest) ++
      forest.drop (smallest_index forest + 1))

/-- The while-loop of `build_huffman_tree` (src/huffman.py:67-74), with
explicit fuel so that the definition computes by kernel reduction.  Each
iteration removes two nodes and appends their parent, so a fuel of the
initial forest length is always enough; `build_huffman_tree` passes exactly
that.  An empty forest models Python's `forest[0]` IndexError. -/
def build_loop : Nat → List Node → Option Node
  | _, [] => none
  | _, [n] => some n
  | 0, _ :: _ :: _ => none
  | fuel + 1, forest =>
    match get_smallest forest with
    | none => none
    | some (left, forest1) =>
      match get_smallest forest1 with
      | none => none
      | some (right, forest2) =>
        build_loop fuel (forest2 ++
          [Node.internal (left.get_frequency + right.get_frequency) left right])

/-- `build_huffman_tree` (src/huffman.py:62-74). -/
def build_huffman_tree (frequencies : List Nat) : Option Node :=
  build_loop (initialize_forest frequencies).length (initialize_forest frequencies)

/-- The symbol slot used by `build_encoding_table` (src/huffman.py:86-91):
space is slot 26, a letter is `ord(symbol) - ord("A")`, as a Python index. -/
def symbol_slot (c : Char) : Int :=
  if c = ' ' then 26 else (c.toNat : Int) - 65

/-- The recursive `traverse` of `build_encoding_table`
(src/huffman.py:85-94): record the accumulated path at a leaf's slot,
otherwise descend left with "0" and right with "1" appended. -/
def traverse_fill : Node → List Bool → List (List Bool) → Option (List (List Bool))
  | .leaf _ s, pre, table => pySet table (symbol_slot s) pre
  | .internal _ l r, pre, table =>
    match traverse_fill l (pre ++ [false]) table with
    | none => none
    | some table1 => traverse_fill r (pre ++ [true]) table1

/-- `build_encoding_table` (src/huffman.py:77-97): start from 27 empty
codes, fill by traversal. -/
def build_encoding_table (huffman_tree_root : Node) : Option (List (List Bool)) :=
  traverse_fill huffman_tree_root [] (List.replicate 27 [])

/-- `encode` (src/huffman.py:100-111): per character, append
`encoding_table[26]` for space and `encoding_table[ord(ch) - ord("A")]`
otherwise — a Python index, so some out-of-alphabet characters hit a valid
negative index and some raise. -/
def encode : List Char → List (List Bool) → Option (List Bool)
  | [], _ => some []
  | ch :: rest, encoding_table =>
    match
      (if ch = ' ' then pyGet encoding_table 26
       else pyGet encoding_table ((ch.toNat : Int) - 65)) with
    | none => none
    | some code =>
      match encode rest encoding_table with
      | none => none
      | some tail => some (code ++ tail)

/-- The loop body of `decode` (src/huffman.py:120-127), cursor `cur`:
step to the left child on bit "0", right child on bit "1" (`none` models
the AttributeError of stepping from a leaf, whose children are Python
`None`); on landing on a node with a symbol, emit it and reset the cursor
to the root. -/
def decode_loop (huffman_root : Node) : List Bool → Node → Option (List Char)
  | [], _ => some []
  | bit :: rest, cur =>
    match (if bit then cur.get_right else cur.get_left) with
    | none => none
    | some next =>
      match next.get_symbol with
      | some c =>
        match decode_loop huffman_root rest huffman_root with
        | none => none
        | some out => some (c :: out)
      | none => decode_loop huffman_root rest next

/-- `decode` (src/huffman.py:114-128). -/
def decode (encoded_string : List Bool) (huffman_root : Node) : Option (List Char) :=
  decode_loop huffman_root encoded_string huffman_root

/-! ## Reference notions used by the statements and proofs -/

/-- The leaves of a tree, left to right, as (weight, symbol) pairs. -/
def Node.leaves : Node → List (Nat × Char)
  | .leaf w s => [(w, s)]
  | .internal _ l r => l.leaves ++ r.leaves

/-- The leaf symbols of a tree, left to right. -/
def leaf_syms (n : Node) : List Char := n.leaves.map Prod.snd

/-- The total weight carried by a tree's leaves. -/
def leaf_weight (n : Node) : Nat := (n.leaves.map Prod.fst).sum

/-- Every root-to-leaf path of a tree, continuing the accumulated prefix
`pre`: `false` ("0") is appended on a left descent and `true` ("1") on a
right descent, exactly the bit assignment of `build_encoding_table`. -/
def pathsOf : Node → List Bool → List (Char × List Bool)
  | .leaf _ s, pre => [(s, pre)]
  | .internal _ l r, pre => pathsOf l (pre ++ [false]) ++ pathsOf r (pre ++ [true])

/-- A character of the codec's 27-symbol alphabet: space or A–Z. -/
def InAlphabet (c : Char) : Prop := c = ' ' ∨ (65 ≤ c.toNat ∧ c.toNat ≤ 90)

instance : DecidablePred InAlphabet := fun c => by
  unfold InAlphabet; infer_instance

/-- A normalized string: only uppercase letters A–Z and spaces. -/
def Normalized (s : List Char) : Prop := ∀ c ∈ s, InAlphabet c

instance (s : List Char) : Decidable (Normalized s) := by
  unfold Normalized; infer_instance

/-- The encoding-table slot of an alphabet symbol, as a natural number. -/
def slot (c : Char) : Nat := if c = ' ' then 26 else c.toNat - 65

/-- The sequence of table writes the `traverse` of `build_encoding_table`
performs, as plain `List.set` updates. -/
def writes : List (Char × List Bool) → List (List Bool) → List (List Bool)
  | [], t => t
  | (c, p) :: rest, t => writes rest (t.set (slot c) p)

/-- Bit-strings that decompose into whole root-to-leaf paths of `t`,
spelling the symbol list `s`. -/
inductive CleanBits (t : Node) : List Bool → List Char → Prop where
  | nil : CleanBits t [] []
  | cons (c : Char) (p bits : List Bool) (s : List Char) :
      (c, p) ∈ pathsOf t [] → CleanBits t bits s → CleanBits t (p ++ bits) (c :: s)

/-! ## Python indexing lemmas -/

theorem pyIdx_of_nat (len i : Nat) (h : i < len) :
    pyIdx len (i : Int) = some i := by
  unfold pyIdx
  rw [if_pos (by exact_mod_cast Nat.zero_le i), if_pos (by exact_mod_cast h)]
  simp

theorem pyGet_of_nat (l : List α) (i : Nat) (h : i < l.length) :
    pyGet l (i : Int) = l[i]? := by
  unfold pyGet
  rw [pyIdx_of_nat _ _ h]
  rfl

theorem pySet_of_nat (l : List α) (i : Nat) (a : α) (h : i < l.length) :
    pySet l (i : Int) a = some (l.set i a) := by
  unfold pySet
  rw [pyIdx_of_nat _ _ h]
  rfl

/-! ## Basic tree lemmas -/

theorem leaves_ne_nil (n : Node) : n.leaves ≠ [] := by
  induction n with
  | leaf w s => simp [Node.leaves]
  | internal w l r ihl ihr => simp [Node.leaves, ihl]

theorem length_flatMap_leaves_ge (forest : List Node) :
    forest.length ≤ (forest.flatMap Node.leaves).length := by
  induction forest with
  | nil => simp
  | cons n rest ih =>
    simp only [List.flatMap_cons, List.length_append, List.length_cons]
    have h1 : 1 ≤ n.leaves.length := by
      cases hn : n.leaves with
      | nil => exact absurd hn (leaves_ne_nil n)
      | cons a b => simp
    omega

theorem leaf_weight_internal (w : Nat) (l r : Node) :
    leaf_weight (.internal w l r) = leaf_weight l + leaf_weight r := by
  simp [leaf_weight, Node.leaves]

theorem pathsOf_map_fst (n : Node) (pre : List Bool) :
    (pathsOf n pre).map Prod.fst = leaf_syms n := by
  induction n generalizing pre with
  | leaf w s => simp [pathsOf, leaf_syms, Node.leaves]
  | internal w l r ihl ihr =>
    simp [pathsOf, leaf_syms, Node.leaves, List.map_append] at *
    simp [ihl, ihr]

theorem pathsOf_shift (n : Node) (a b : List Bool) :
    pathsOf n (a ++ b) = (pathsOf n b).map fun q => (q.1, a ++ q.2) := by
  induction n generalizing b with
  | leaf w s => simp [pathsOf]
  | internal w l r ihl ihr =>
    simp only [pathsOf, List.map_append]
    rw [List.append_assoc, List.append_assoc, ihl, ihr]

theorem pathsOf_eq_map (n : Node) (pre : List Bool) :
    pathsOf n pre = (pathsOf n []).map fun q => (q.1, pre ++ q.2) := by
  have h := pathsOf_shift n pre []
  simpa using h

/-! ## The stable minimum scan of get_smallest -/

open List

theorem scan_min_spec (l : List Node) : ∀ (pre : List Node) (besti : Nat) (b : Node),
    pre[besti]? = some b →
    (∀ m ∈ pre, b.get_frequency ≤ m.get_frequency) →
    (∀ j m, j < besti → pre[j]? = some m → b.get_frequency < m.get_frequency) →
    ∃ n, (pre ++ l)[scan_min l pre.length besti b.get_frequency]? = some n ∧
      (∀ m ∈ pre ++ l, n.get_frequency ≤ m.get_frequency) ∧
      (∀ j m, j < scan_min l pre.length besti b.get_frequency →
        (pre ++ l)[j]? = some m → n.get_frequency < m.get_frequency) := by
  induction l with
  | nil =>
    intro pre besti b hb hmin hfirst
    exact ⟨b, by simpa [scan_min] using hb, by simpa using hmin,
      by simpa [scan_min] using hfirst⟩
  | cons hd tl ih =>
    intro pre besti b hb hmin hfirst
    have hbesti : besti < pre.length := by
      by_contra hge
      rw [List.getElem?_eq_none (Nat.le_of_not_lt hge)] at hb
      exact Option.noConfusion hb
    have hsplit : pre ++ hd :: tl = (pre ++ [hd]) ++ tl := by simp
    have hlen : (pre ++ [hd]).length = pre.length + 1 := by simp
    by_cases hlt : hd.get_frequency < b.get_frequency
    · have h1 : (pre ++ [hd])[pre.length]? = some hd := by
        rw [List.getElem?_append_right (Nat.le_refl _)]
        simp
      have h2 : ∀ m ∈ pre ++ [hd], hd.get_frequency ≤ m.get_frequency := by
        intro m hm
        rcases List.mem_append.1 hm with hm | hm
        · exact Nat.le_of_lt (Nat.lt_of_lt_of_le hlt (hmin m hm))
        · simp at hm; subst hm; exact Nat.le_refl _
      have h3 : ∀ j m, j < pre.length → (pre ++ [hd])[j]? = some m →
          hd.get_frequency < m.get_frequency := by
        intro j m hj hjm
        rw [List.getElem?_append_left hj] at hjm
        exact Nat.lt_of_lt_of_le hlt (hmin m (List.getElem?_mem hjm))
      have := ih (pre ++ [hd]) pre.length hd h1 h2 h3
      rw [hlen] at this
      rw [hsplit]
      simpa [scan_min, hlt] using this
    · have h1 : (pre ++ [hd])[besti]? = some b := by
        rw [List.getElem?_append_left hbesti]; exact hb
      have h2 : ∀ m ∈ pre ++ [hd], b.get_frequency ≤ m.get_frequency := by
        intro m hm
        rcases List.mem_append.1 hm with hm | hm
        · exact hmin m hm
        · simp at hm; subst hm; exact Nat.le_of_not_lt hlt
      have h3 : ∀ j m, j < besti → (pre ++ [hd])[j]? = some m →
          b.get_frequency < m.get_frequency := by
        intro j m hj hjm
        rw [List.getElem?_append_left (Nat.lt_trans hj hbesti)] at hjm
        exact hfirst j m hj hjm
      have := ih (pre ++ [hd]) besti b h1 h2 h3
      rw [hlen] at this
      rw [hsplit]
      simpa [scan_min, hlt] using this

theorem get_smallest_spec (forest : List Node) (h : forest ≠ []) :
    ∃ n rest,
      get_smallest forest = some (n, rest) ∧
      forest[smallest_index forest]? = some n ∧
      rest = forest.take (smallest_index forest) ++
        forest.drop (smallest_index forest + 1) ∧
      rest.length + 1 = forest.length ∧
      n :: rest ~ forest ∧
      (∀ m ∈ forest, n.get_frequency ≤ m.get_frequency) ∧
      (∀ j m, j < smallest_index forest → forest[j]? = some m →
        n.get_frequency < m.get_frequency) := by
  match forest, h with
  | hd :: tl, _ =>
    have hspec := scan_min_spec tl [hd] 0 hd (by simp)
      (by intro m hm; simp at hm; subst hm; exact Nat.le_refl _)
      (by intro j m hj; omega)
    simp only [List.length_cons, List.length_nil, List.singleton_append,
      Nat.zero_add] at hspec
    obtain ⟨n, hget, hmin, hfirst⟩ := hspec
    have hsi : smallest_index (hd :: tl) = scan_min tl 1 0 hd.get_frequency := rfl
    rw [← hsi] at hget hfirst
    have hlt : smallest_index (hd :: tl) < (hd :: tl).length := by
      by_contra hge
      rw [List.getElem?_eq_none (Nat.le_of_not_lt hge)] at hget
      exact Option.noConfusion hget
    refine ⟨n, _, ?_, hget, rfl, ?_, ?_, hmin, hfirst⟩
    · unfold get_smallest
      rw [hget]
    · rw [List.length_append, List.length_take, List.length_drop]
      simp only [List.length_cons] at hlt ⊢
      omega
    · obtain ⟨hlt', heq⟩ := List.getElem?_eq_some.1 hget
      calc n :: ((hd :: tl).take (smallest_index (hd :: tl)) ++
            (hd :: tl).drop (smallest_index (hd :: tl) + 1))
          ~ (hd :: tl).take (smallest_index (hd :: tl)) ++
            n :: (hd :: tl).drop (smallest_index (hd :: tl) + 1) :=
            List.perm_middle.symm
        _ = (hd :: tl).take (smallest_index (hd :: tl)) ++
            (hd :: tl).drop (smallest_index (hd :: tl)) := by
            rw [List.drop_eq_getElem_cons hlt', heq]
        _ = hd :: tl := List.take_append_drop _ _

/-! ## The merge loop of build_huffman_tree -/

/-- A node whose stored weight is the total weight of its leaves. -/
def weight_ok (n : Node) : Prop := n.get_frequency = leaf_weight n

theorem build_loop_cons₂ (fuel : Nat) (a b : Node) (rest : List Node) :
    build_loop (fuel + 1) (a :: b :: rest) =
      match get_smallest (a :: b :: rest) with
      | none => none
      | some (left, forest1) =>
        match get_smallest forest1 with
        | none => none
        | some (right, forest2) =>
          build_loop fuel (forest2 ++
            [Node.internal (left.get_frequency + right.get_frequency) left right]) :=
  rfl

theorem build_loop_spec : ∀ (fuel : Nat) (forest : List Node),
    forest ≠ [] → forest.length ≤ fuel + 1 →
    ∃ t, build_loop fuel forest = some t ∧
      t.leaves ~ forest.flatMap Node.leaves ∧
      ((∀ n ∈ forest, weight_ok n) → weight_ok t) := by
  intro fuel
  induction fuel with
  | zero =>
    intro forest hne hlen
    cases forest with
    | nil => exact absurd rfl hne
    | cons a tl =>
      cases tl with
      | nil => exact ⟨a, rfl, by simp, fun h => h a (by simp)⟩
      | cons b rest => simp at hlen
  | succ fuel ih =>
    intro forest hne hlen
    cases forest with
    | nil => exact absurd rfl hne
    | cons a tl =>
    cases tl with
    | nil => exact ⟨a, rfl, by simp, fun h => h a (by simp)⟩
    | cons b rest =>
      obtain ⟨n1, rest1, hgs1, _, _, hlen1, hperm1, -, -⟩ :=
        get_smallest_spec (a :: b :: rest) (by simp)
      have hne1 : rest1 ≠ [] := by
        intro hnil
        rw [hnil] at hlen1
        simp at hlen1
      obtain ⟨n2, rest2, hgs2, _, _, hlen2, hperm2, -, -⟩ :=
        get_smallest_spec rest1 hne1
      set parent := Node.internal (n1.get_frequency + n2.get_frequency) n1 n2
        with hparent
      have hne' : rest2 ++ [parent] ≠ [] := by simp
      have hlen' : (rest2 ++ [parent]).length ≤ fuel + 1 := by
        simp only [List.length_append, List.length_cons, List.length_nil] at hlen hlen1 hlen2 ⊢
        omega
      obtain ⟨t, hbuild, hperm, hw⟩ := ih (rest2 ++ [parent]) hne' hlen'
      refine ⟨t, ?_, ?_, ?_⟩
      · rw [build_loop_cons₂]
        simp only [hgs1, hgs2]
        exact hbuild
      · have e1 : (rest2 ++ [parent]).flatMap Node.leaves
            = rest2.flatMap Node.leaves ++ (n1.leaves ++ n2.leaves) := by
          simp [hparent, Node.leaves]
        have p1 : (a :: b :: rest).flatMap Node.leaves ~
            n1.leaves ++ rest1.flatMap Node.leaves := by
          have h := (hperm1.symm.flatMap_right Node.leaves)
          simpa using h
        have p2 : rest1.flatMap Node.leaves ~
            n2.leaves ++ rest2.flatMap Node.leaves := by
          have h := (hperm2.symm.flatMap_right Node.leaves)
          simpa using h
        calc t.leaves
            ~ (rest2 ++ [parent]).flatMap Node.leaves := hperm
          _ = rest2.flatMap Node.leaves ++ (n1.leaves ++ n2.leaves) := e1
          _ ~ (n1.leaves ++ n2.leaves) ++ rest2.flatMap Node.leaves :=
              List.perm_append_comm
          _ = n1.leaves ++ (n2.leaves ++ rest2.flatMap Node.leaves) := by simp
          _ ~ n1.leaves ++ rest1.flatMap Node.leaves :=
              List.Perm.append_left _ p2.symm
          _ ~ (a :: b :: rest).flatMap Node.leaves := p1.symm
      · intro hall
        apply hw
        intro m hm
        rcases List.mem_append.1 hm with hm | hm
        · have hm1 : m ∈ rest1 := hperm2.mem_iff.1 (List.mem_cons_of_mem _ hm)
          exact hall m (hperm1.mem_iff.1 (List.mem_cons_of_mem _ hm1))
        · simp only [List.mem_singleton] at hm
          subst hm
          have h1 : weight_ok n1 := hall n1 (hperm1.mem_iff.1 (List.mem_cons_self _ _))
          have h2 : weight_ok n2 := by
            have hmem : n2 ∈ rest1 := hperm2.mem_iff.1 (List.mem_cons_self _ _)
            exact hall n2 (hperm1.mem_iff.1 (List.mem_cons_of_mem _ hmem))
          unfold weight_ok at h1 h2 ⊢
          rw [hparent]
          show n1.get_frequency + n2.get_frequency =
            leaf_weight (.internal (n1.get_frequency + n2.get_frequency) n1 n2)
          rw [leaf_weight_internal, h1, h2]

/-! ## The initial forest -/

/-- The (weight, symbol) pairs of the letter leaves. -/
def letter_pairs : Nat → List Nat → List (Nat × Char)
  | _, [] => []
  | i, f :: rest =>
    (if 0 < f then [(f, Char.ofNat (i + 65))] else []) ++ letter_pairs (i + 1) rest

theorem letter_leaves_flatMap (f : List Nat) : ∀ k,
    (letter_leaves k f).flatMap Node.leaves = letter_pairs k f := by
  induction f with
  | nil => intro k; rfl
  | cons f0 rest ih =>
    intro k
    by_cases h : 0 < f0 <;>
      simp [letter_leaves, letter_pairs, h, Node.leaves, ih]

theorem initialize_forest_flatMap (f : List Nat) :
    (initialize_forest f).flatMap Node.leaves =
      letter_pairs 0 f ++ [(max f.sum 1, ' ')] := by
  simp [initialize_forest, letter_leaves_flatMap, Node.leaves]

theorem letter_pairs_weight_sum (f : List Nat) : ∀ k,
    ((letter_pairs k f).map Prod.fst).sum = f.sum := by
  induction f with
  | nil => intro k; rfl
  | cons f0 rest ih =>
    intro k
    by_cases h : 0 < f0
    · simp [letter_pairs, h, ih]
    · have h0 : f0 = 0 := by omega
      simp [letter_pairs, h, ih, h0]

theorem letter_pairs_mem (f : List Nat) : ∀ k p, p ∈ letter_pairs k f →
    ∃ j w, f[j]? = some w ∧ 0 < w ∧ p = (w, Char.ofNat (k + j + 65)) := by
  induction f with
  | nil => intro k p hp; simp [letter_pairs] at hp
  | cons f0 rest ih =>
    intro k p hp
    by_cases h : 0 < f0
    · simp only [letter_pairs, if_pos h, List.singleton_append, List.mem_cons] at hp
      rcases hp with hp | hp
      · exact ⟨0, f0, by simp, h, by simpa using hp⟩
      · obtain ⟨j, w, hj, hw, hpe⟩ := ih (k + 1) p hp
        have harith : k + 1 + j + 65 = k + (j + 1) + 65 := by omega
        exact ⟨j + 1, w, by simpa using hj, hw, by rw [hpe, harith]⟩
    · simp only [letter_pairs, if_neg h, List.nil_append] at hp
      obtain ⟨j, w, hj, hw, hpe⟩ := ih (k + 1) p hp
      have harith : k + 1 + j + 65 = k + (j + 1) + 65 := by omega
      exact ⟨j + 1, w, by simpa using hj, hw, by rw [hpe, harith]⟩

theorem mem_letter_pairs (f : List Nat) : ∀ k j w, f[j]? = some w → 0 < w →
    (w, Char.ofNat (k + j + 65)) ∈ letter_pairs k f := by
  induction f with
  | nil => intro k j w hj _; simp at hj
  | cons f0 rest ih =>
    intro k j w hj hw
    cases j with
    | zero =>
      rw [List.getElem?_cons_zero] at hj
      have hf0 : f0 = w := by injection hj
      subst hf0
      simp [letter_pairs, if_pos hw]
    | succ j =>
      rw [List.getElem?_cons_succ] at hj
      have hmem := ih (k + 1) j w hj hw
      have harith : k + (j + 1) + 65 = k + 1 + j + 65 := by omega
      rw [harith]
      by_cases h : 0 < f0
      · simp only [letter_pairs, if_pos h, List.singleton_append, List.mem_cons]
        exact Or.inr hmem
      · simp only [letter_pairs, if_neg h, List.nil_append]
        exact hmem

/-! ## Character facts for the 27-symbol alphabet -/

theorem char_toNat_letter : ∀ m : Fin 27, (Char.ofNat (m.val + 65)).toNat = m.val + 65 := by
  decide

theorem char_toNat_add_65 (m : Nat) (h : m < 27) :
    (Char.ofNat (m + 65)).toNat = m + 65 :=
  char_toNat_letter ⟨m, h⟩

theorem char_letter_ne_space (m : Nat) (h : m < 27) : Char.ofNat (m + 65) ≠ ' ' := by
  intro he
  have h1 := char_toNat_add_65 m h
  rw [he] at h1
  have h2 : (' ' : Char).toNat = 32 := rfl
  omega

theorem char_letter_inj (m m' : Nat) (hm : m < 27) (hm' : m' < 27)
    (he : Char.ofNat (m + 65) = Char.ofNat (m' + 65)) : m = m' := by
  have h1 := char_toNat_add_65 m hm
  have h2 := char_toNat_add_65 m' hm'
  rw [he] at h1
  omega

theorem char_letter_alpha (m : Nat) (h : m < 26) : InAlphabet (Char.ofNat (m + 65)) := by
  right
  rw [char_toNat_add_65 m (by omega)]
  omega

theorem letter_pairs_syms_nodup (f : List Nat) : ∀ k, k + f.length ≤ 26 →
    ((letter_pairs k f).map Prod.snd).Nodup := by
  induction f with
  | nil => intro k _; simp [letter_pairs]
  | cons f0 rest ih =>
    intro k hk
    simp only [List.length_cons] at hk
    by_cases h : 0 < f0
    · simp only [letter_pairs, if_pos h, List.singleton_append, List.map_cons,
        List.nodup_cons]
      refine ⟨?_, ih (k + 1) (by omega)⟩
      intro hmem
      simp only [List.mem_map] at hmem
      obtain ⟨p, hp, hsnd⟩ := hmem
      obtain ⟨j, w, hj, _, hpe⟩ := letter_pairs_mem rest (k + 1) p hp
      have hjlen : j < rest.length := by
        by_contra hge
        rw [List.getElem?_eq_none (Nat.le_of_not_lt hge)] at hj
        exact Option.noConfusion hj
      rw [hpe] at hsnd
      have := char_letter_inj (k + 1 + j) k (by omega) (by omega) hsnd
      omega
    · simp only [letter_pairs, if_neg h, List.nil_append]
      exact ih (k + 1) (by omega)

theorem initialize_forest_syms_nodup (f : List Nat) (h26 : f.length = 26) :
    (((initialize_forest f).flatMap Node.leaves).map Prod.snd).Nodup := by
  rw [initialize_forest_flatMap, List.map_append]
  apply List.Nodup.append
  · exact letter_pairs_syms_nodup f 0 (by omega)
  · simp
  · intro c hc hc'
    simp only [List.map_cons, List.map_nil, List.mem_singleton] at hc'
    subst hc'
    simp only [List.mem_map] at hc
    obtain ⟨p, hp, hsnd⟩ := hc
    obtain ⟨j, w, hj, _, hpe⟩ := letter_pairs_mem f 0 p hp
    have hjlen : j < f.length := by
      by_contra hge
      rw [List.getElem?_eq_none (Nat.le_of_not_lt hge)] at hj
      exact Option.noConfusion hj
    rw [hpe] at hsnd
    exact char_letter_ne_space (0 + j) (by omega) hsnd

theorem initialize_forest_syms_alpha (f : List Nat) (h26 : f.length = 26) :
    ∀ p ∈ (initialize_forest f).flatMap Node.leaves, InAlphabet p.2 := by
  rw [initialize_forest_flatMap]
  intro p hp
  rcases List.mem_append.1 hp with hp | hp
  · obtain ⟨j, w, hj, _, hpe⟩ := letter_pairs_mem f 0 p hp
    have hjlen : j < f.length := by
      by_contra hge
      rw [List.getElem?_eq_none (Nat.le_of_not_lt hge)] at hj
      exact Option.noConfusion hj
    rw [hpe]
    have := char_letter_alpha (0 + j) (by omega)
    simpa using this
  · simp only [List.mem_singleton] at hp
    rw [hp]
    left
    rfl

theorem letter_leaves_mem_leaf (f : List Nat) : ∀ k n, n ∈ letter_leaves k f →
    ∃ w s, n = Node.leaf w s := by
  induction f with
  | nil => intro k n hn; simp [letter_leaves] at hn
  | cons f0 rest ih =>
    intro k n hn
    by_cases h : 0 < f0
    · simp only [letter_leaves, if_pos h, List.singleton_append, List.mem_cons] at hn
      rcases hn with hn | hn
      · exact ⟨f0, Char.ofNat (k + 65), hn⟩
      · exact ih (k + 1) n hn
    · simp only [letter_leaves, if_neg h, List.nil_append] at hn
      exact ih (k + 1) n hn

theorem initialize_forest_weight_ok (f : List Nat) :
    ∀ n ∈ initialize_forest f, weight_ok n := by
  intro n hn
  rcases List.mem_append.1 hn with hn | hn
  · obtain ⟨w, s, he⟩ := letter_leaves_mem_leaf f 0 n hn
    rw [he]
    simp [weight_ok, Node.get_frequency, leaf_weight, Node.leaves]
  · simp only [List.mem_singleton] at hn
    rw [hn]
    simp [weight_ok, Node.get_frequency, leaf_weight, Node.leaves]

theorem build_huffman_tree_spec (f : List Nat) :
    ∃ t, build_huffman_tree f = some t ∧
      t.leaves ~ letter_pairs 0 f ++ [(max f.sum 1, ' ')] ∧
      weight_ok t := by
  obtain ⟨t, hb, hp, hw⟩ := build_loop_spec (initialize_forest f).length
    (initialize_forest f) (by simp [initialize_forest]) (by omega)
  refine ⟨t, hb, ?_, hw (initialize_forest_weight_ok f)⟩
  rw [← initialize_forest_flatMap]
  exact hp

/-! ## Frequency counting on normalized strings -/

theorem char_toNat_inj (c d : Char) (h : c.toNat = d.toNat) : c = d := by
  have hc := Char.ofNat_toNat c
  rw [h, Char.ofNat_toNat] at hc
  exact hc.symm

theorem count_frequencies_loop_spec (s : List Char) : ∀ f : List Nat,
    Normalized s → f.length = 26 →
    ∃ f', count_frequencies_loop s f = some f' ∧ f'.length = 26 ∧
      ∀ i, i < 26 →
        (0 < f'.getD i 0 ↔ (0 < f.getD i 0 ∨ Char.ofNat (i + 65) ∈ s)) := by
  induction s with
  | nil =>
    intro f _ h26
    exact ⟨f, rfl, h26, by simp⟩
  | cons c rest ih =>
    intro f hnorm h26
    have hc : InAlphabet c := hnorm c (List.mem_cons_self _ _)
    have hrest : Normalized rest := fun d hd => hnorm d (List.mem_cons_of_mem _ hd)
    by_cases hsp : c = ' '
    · obtain ⟨f', he, h26', hiff⟩ := ih f hrest h26
      refine ⟨f', by simpa [count_frequencies_loop, hsp] using he, h26', ?_⟩
      intro i hi
      rw [hiff i hi]
      have hne : Char.ofNat (i + 65) ≠ c := by
        rw [hsp]; exact char_letter_ne_space i (by omega)
      simp [List.mem_cons, hne]
    · have hcl : 65 ≤ c.toNat ∧ c.toNat ≤ 90 := hc.resolve_left hsp
      set j := c.toNat - 65 with hj
      have hjlt : j < 26 := by omega
      have hcast : (c.toNat : Int) - 65 = (j : Int) := by omega
      have hjf : j < f.length := by omega
      have hget : pyGet f ((c.toNat : Int) - 65) = some f[j] := by
        rw [hcast, pyGet_of_nat f j hjf, List.getElem?_eq_getElem hjf]
      have hset : pySet f ((c.toNat : Int) - 65) (f[j] + 1) =
          some (f.set j (f[j] + 1)) := by
        rw [hcast, pySet_of_nat f j _ hjf]
      obtain ⟨f', he, h26', hiff⟩ := ih (f.set j (f[j] + 1)) hrest (by simpa using h26)
      refine ⟨f', ?_, h26', ?_⟩
      · show count_frequencies_loop (c :: rest) f = some f'
        rw [count_frequencies_loop, if_neg hsp]
        simp only [hget, hset]
        exact he
      · intro i hi
        rw [hiff i hi]
        by_cases hij : i = j
        · have hself : (f.set j (f[j] + 1)).getD i 0 = f[j] + 1 := by
            rw [hij, List.getD_eq_getElem?_getD, List.getElem?_set_self (by omega)]
            rfl
          have hcc : Char.ofNat (i + 65) = c := by
            have hin : i + 65 = c.toNat := by omega
            rw [hin, Char.ofNat_toNat]
          rw [hself, hcc]
          simp [List.mem_cons]
        · have hother : (f.set j (f[j] + 1)).getD i 0 = f.getD i 0 := by
            rw [List.getD_eq_getElem?_getD, List.getElem?_set_ne (by omega),
              ← List.getD_eq_getElem?_getD]
          have hne : Char.ofNat (i + 65) ≠ c := by
            intro he'
            have h1 := char_toNat_add_65 i (by omega)
            rw [he'] at h1
            omega
          rw [hother]
          simp [List.mem_cons, hne]

theorem count_frequencies_spec (s : List Char) (hnorm : Normalized s) :
    ∃ f, count_frequencies s = some f ∧ f.length = 26 ∧
      ∀ i, i < 26 → (0 < f.getD i 0 ↔ Char.ofNat (i + 65) ∈ s) := by
  obtain ⟨f, he, h26, hiff⟩ := count_frequencies_loop_spec s (List.replicate 26 0)
    hnorm (by simp)
  refine ⟨f, he, h26, ?_⟩
  intro i hi
  rw [hiff i hi]
  have hrep : (List.replicate 26 0).getD i 0 = 0 := by
    rw [List.getD_eq_getElem?_getD, List.getElem?_replicate_of_lt hi]
    rfl
  rw [hrep]
  simp

/-! ## The encoding table -/

theorem writes_length (ps : List (Char × List Bool)) : ∀ t,
    (writes ps t).length = t.length := by
  induction ps with
  | nil => intro t; rfl
  | cons q rest ih =>
    intro t
    obtain ⟨c, p⟩ := q
    rw [writes, ih]
    simp

theorem writes_append (ps qs : List (Char × List Bool)) : ∀ t,
    writes (ps ++ qs) t = writes qs (writes ps t) := by
  induction ps with
  | nil => intro t; rfl
  | cons q rest ih =>
    intro t
    obtain ⟨c, p⟩ := q
    rw [List.cons_append, writes, writes, ih]

theorem symbol_slot_cast (c : Char) (h : InAlphabet c) :
    symbol_slot c = (slot c : Int) ∧ slot c < 27 := by
  rcases h with h | h
  · rw [h]
    constructor
    · rfl
    · rw [slot]
      simp
  · have hne : c ≠ ' ' := by
      intro he
      rw [he] at h
      have h32 : (' ' : Char).toNat = 32 := rfl
      omega
    rw [symbol_slot, slot, if_neg hne, if_neg hne]
    omega

theorem slot_inj (c d : Char) (hc : InAlphabet c) (hd : InAlphabet d)
    (h : slot c = slot d) : c = d := by
  have hsp32 : (' ' : Char).toNat = 32 := rfl
  rcases hc with hc | hc <;> rcases hd with hd | hd
  · rw [hc, hd]
  · exfalso
    have hdne : d ≠ ' ' := by
      intro he; rw [he] at hd; omega
    rw [hc] at h
    rw [slot, slot, if_pos rfl, if_neg hdne] at h
    omega
  · exfalso
    have hcne : c ≠ ' ' := by
      intro he; rw [he] at hc; omega
    rw [hd] at h
    rw [slot, slot, if_pos rfl, if_neg hcne] at h
    omega
  · have hcne : c ≠ ' ' := by
      intro he; rw [he] at hc; omega
    have hdne : d ≠ ' ' := by
      intro he; rw [he] at hd; omega
    rw [slot, slot, if_neg hcne, if_neg hdne] at h
    exact char_toNat_inj c d (by omega)

theorem traverse_fill_eq (n : Node) : ∀ (pre : List Bool) (t : List (List Bool)),
    t.length = 27 → (∀ c ∈ leaf_syms n, InAlphabet c) →
    traverse_fill n pre t = some (writes (pathsOf n pre) t) := by
  induction n with
  | leaf w s =>
    intro pre t h27 halpha
    have hs : InAlphabet s := halpha s (by simp [leaf_syms, Node.leaves])
    obtain ⟨hcast, hlt⟩ := symbol_slot_cast s hs
    rw [traverse_fill, pathsOf, writes, writes, hcast,
      pySet_of_nat t (slot s) pre (by omega)]
  | internal w l r ihl ihr =>
    intro pre t h27 halpha
    have hall : ∀ c ∈ leaf_syms l, InAlphabet c := by
      intro c hcm
      apply halpha
      simp only [leaf_syms, Node.leaves, List.map_append, List.mem_append]
      exact Or.inl hcm
    have harr : ∀ c ∈ leaf_syms r, InAlphabet c := by
      intro c hcm
      apply halpha
      simp only [leaf_syms, Node.leaves, List.map_append, List.mem_append]
      exact Or.inr hcm
    rw [traverse_fill]
    simp only [ihl (pre ++ [false]) t h27 hall]
    rw [ihr (pre ++ [true]) _ (by rw [writes_length]; exact h27) harr]
    rw [pathsOf, writes_append]

theorem build_encoding_table_eq (t : Node)
    (halpha : ∀ c ∈ leaf_syms t, InAlphabet c) :
    build_encoding_table t = some (writes (pathsOf t []) (List.replicate 27 [])) :=
  traverse_fill_eq t [] (List.replicate 27 []) (by simp) halpha

theorem writes_getElem?_not_written (ps : List (Char × List Bool)) :
    ∀ (t : List (List Bool)) (i : Nat), (∀ q ∈ ps, slot q.1 ≠ i) →
    (writes ps t)[i]? = t[i]? := by
  induction ps with
  | nil => intro t i _; rfl
  | cons q rest ih =>
    intro t i hnot
    obtain ⟨c, p⟩ := q
    rw [writes, ih _ _ (fun q hq => hnot q (List.mem_cons_of_mem _ hq))]
    rw [List.getElem?_set_ne (hnot (c, p) (List.mem_cons_self _ _))]

theorem writes_getElem?_written (ps : List (Char × List Bool)) :
    ∀ (t : List (List Bool)) (c : Char) (p : List Bool), (c, p) ∈ ps →
    (ps.map fun q => slot q.1).Nodup → slot c < t.length →
    (writes ps t)[slot c]? = some p := by
  induction ps with
  | nil => intro t c p hmem; simp at hmem
  | cons q rest ih =>
    intro t c p hmem hnodup hlt
    obtain ⟨qc, qp⟩ := q
    simp only [List.map_cons, List.nodup_cons] at hnodup
    rcases List.mem_cons.1 hmem with he | hmem'
    · have hqc : qc = c := (Prod.mk.injEq _ _ _ _ ▸ he.symm).1
      have hqp : qp = p := (Prod.mk.injEq _ _ _ _ ▸ he.symm).2
      subst hqc hqp
      rw [writes]
      rw [writes_getElem?_not_written rest _ (slot qc) ?hrest]
      case hrest =>
        intro q' hq' heq
        exact hnodup.1 (List.mem_map.2 ⟨q', hq', heq⟩)
      rw [List.getElem?_set_self hlt]
    · rw [writes]
      exact ih _ c p hmem' hnodup.2 (by simpa using hlt)

/-! ## Decoding lemmas -/

theorem pathsOf_internal_mem (w : Nat) (l r : Node) (c : Char) (p : List Bool)
    (h : (c, p) ∈ pathsOf (.internal w l r) []) :
    (∃ q, (c, q) ∈ pathsOf l [] ∧ p = false :: q) ∨
    (∃ q, (c, q) ∈ pathsOf r [] ∧ p = true :: q) := by
  rw [pathsOf, List.nil_append, List.nil_append] at h
  rcases List.mem_append.1 h with h | h
  · left
    rw [pathsOf_eq_map l [false]] at h
    simp only [List.mem_map] at h
    obtain ⟨q, hq, he⟩ := h
    have hc : q.1 = c := congrArg Prod.fst he
    have hp : [false] ++ q.2 = p := congrArg Prod.snd he
    have hq' : (q.1, q.2) ∈ pathsOf l [] := by simpa using hq
    rw [hc] at hq'
    exact ⟨q.2, hq', by rw [← hp]; rfl⟩
  · right
    rw [pathsOf_eq_map r [true]] at h
    simp only [List.mem_map] at h
    obtain ⟨q, hq, he⟩ := h
    have hc : q.1 = c := congrArg Prod.fst he
    have hp : [true] ++ q.2 = p := congrArg Prod.snd he
    have hq' : (q.1, q.2) ∈ pathsOf r [] := by simpa using hq
    rw [hc] at hq'
    exact ⟨q.2, hq', by rw [← hp]; rfl⟩

theorem decode_loop_code (root : Node) : ∀ (u : Node) (w : Nat) (l r : Node),
    u = Node.internal w l r →
    ∀ (c : Char) (p : List Bool), (c, p) ∈ pathsOf u [] → ∀ rest,
    decode_loop root (p ++ rest) u =
      (decode_loop root rest root).map fun out => c :: out := by
  intro u
  induction u with
  | leaf wu su =>
    intro w' l' r' he
    exact absurd he (by simp)
  | internal wu lu ru ihl ihr =>
    intro w' l' r' _ c p hmem rest
    rcases pathsOf_internal_mem wu lu ru c p hmem with ⟨q, hq, hp⟩ | ⟨q, hq, hp⟩
    · subst hp
      cases lu with
      | leaf wl sl =>
        simp only [pathsOf, List.mem_singleton, Prod.mk.injEq] at hq
        obtain ⟨hc, hq0⟩ := hq
        subst hc hq0
        cases h : decode_loop root rest root <;>
          simp [decode_loop, Node.get_left, Node.get_symbol, h]
      | internal wl ll rl =>
        have hstep := ihl wl ll rl rfl c q hq rest
        show decode_loop root (false :: q ++ rest) _ = _
        simp only [List.cons_append, decode_loop, Node.get_left, Node.get_symbol,
          Bool.false_eq_true, if_false]
        exact hstep
    · subst hp
      cases ru with
      | leaf wr sr =>
        simp only [pathsOf, List.mem_singleton, Prod.mk.injEq] at hq
        obtain ⟨hc, hq0⟩ := hq
        subst hc hq0
        cases h : decode_loop root rest root <;>
          simp [decode_loop, Node.get_right, Node.get_symbol, h]
      | internal wr lr rr =>
        have hstep := ihr wr lr rr rfl c q hq rest
        show decode_loop root (true :: q ++ rest) _ = _
        simp only [List.cons_append, decode_loop, Node.get_right, Node.get_symbol,
          if_true]
        exact hstep

theorem decode_loop_strict_pfx (root : Node) : ∀ (u : Node) (w : Nat) (l r : Node),
    u = Node.internal w l r →
    ∀ (c : Char) (p : List Bool), (c, p) ∈ pathsOf u [] →
    ∀ p', p' <+: p → p' ≠ p → decode_loop root p' u = some [] := by
  intro u
  induction u with
  | leaf wu su =>
    intro w' l' r' he
    exact absurd he (by simp)
  | internal wu lu ru ihl ihr =>
    intro w' l' r' _ c p hmem p' hpfx hne
    cases p' with
    | nil => rfl
    | cons b p'' =>
      rcases pathsOf_internal_mem wu lu ru c p hmem with ⟨q, hq, hp⟩ | ⟨q, hq, hp⟩
      · subst hp
        obtain ⟨z, hz⟩ := hpfx
        rw [List.cons_append] at hz
        injection hz with hb hz'
        subst hb
        cases lu with
        | leaf wl sl =>
          simp only [pathsOf, List.mem_singleton, Prod.mk.injEq] at hq
          obtain ⟨_, hq0⟩ := hq
          subst hq0
          have hp'' : p'' = [] := (List.append_eq_nil.1 hz').1
          exact absurd (show (false :: p'' : List Bool) = [false] by rw [hp'']) hne
        | internal wl ll rl =>
          show decode_loop root (false :: p'') _ = some []
          simp only [decode_loop, Node.get_left, Node.get_symbol,
            Bool.false_eq_true, if_false]
          refine ihl wl ll rl rfl c q hq p'' ⟨z, hz'⟩ ?_
          intro he
          exact hne (by rw [he])
      · subst hp
        obtain ⟨z, hz⟩ := hpfx
        rw [List.cons_append] at hz
        injection hz with hb hz'
        subst hb
        cases ru with
        | leaf wr sr =>
          simp only [pathsOf, List.mem_singleton, Prod.mk.injEq] at hq
          obtain ⟨_, hq0⟩ := hq
          subst hq0
          have hp'' : p'' = [] := (List.append_eq_nil.1 hz').1
          exact absurd (show (true :: p'' : List Bool) = [true] by rw [hp'']) hne
        | internal wr lr rr =>
          show decode_loop root (true :: p'') _ = some []
          simp only [decode_loop, Node.get_right, Node.get_symbol, if_true]
          refine ihr wr lr rr rfl c q hq p'' ⟨z, hz'⟩ ?_
          intro he
          exact hne (by rw [he])

theorem decode_loop_total (root : Node) (wr : Nat) (lr rr : Node)
    (hroot : root = Node.internal wr lr rr) :
    ∀ (bits : List Bool) (u : Node) (w : Nat) (l r : Node),
    u = Node.internal w l r →
    ∃ out, decode_loop root bits u = some out := by
  intro bits
  induction bits with
  | nil =>
    intro u w l r _
    exact ⟨[], rfl⟩
  | cons b rest ih =>
    intro u w l r hu
    subst hu
    obtain ⟨out, hout⟩ := ih root wr lr rr hroot
    cases b with
    | false =>
      cases l with
      | leaf wl sl =>
        exact ⟨sl :: out, by
          simp [decode_loop, Node.get_left, Node.get_symbol, hout]⟩
      | internal wl ll rl =>
        obtain ⟨out2, hout2⟩ := ih (Node.internal wl ll rl) wl ll rl rfl
        exact ⟨out2, by
          simp [decode_loop, Node.get_left, Node.get_symbol, hout2]⟩
    | true =>
      cases r with
      | leaf wr2 sr =>
        exact ⟨sr :: out, by
          simp [decode_loop, Node.get_right, Node.get_symbol, hout]⟩
      | internal wr2 lr2 rr2 =>
        obtain ⟨out2, hout2⟩ := ih (Node.internal wr2 lr2 rr2) wr2 lr2 rr2 rfl
        exact ⟨out2, by
          simp [decode_loop, Node.get_right, Node.get_symbol, hout2]⟩

theorem decode_cleanbits (t : Node) (w : Nat) (l r : Node)
    (ht : t = Node.internal w l r) :
    ∀ (bits : List Bool) (s : List Char), CleanBits t bits s →
    decode bits t = some s := by
  intro bits s h
  induction h with
  | nil => rfl
  | cons c p bits' s' hmem _ ih =>
    show decode (p ++ bits') t = some (c :: s')
    unfold decode at ih ⊢
    rw [decode_loop_code t t w l r ht c p hmem bits', ih]
    rfl

/-! ## The prefix-free law on paths -/

theorem append_single_getElem (pre : List Bool) (b : Bool) (rest : List Bool) :
    ((pre ++ [b]) ++ rest)[pre.length]? = some b := by
  rw [List.append_assoc, List.getElem?_append_right (Nat.le_refl _)]
  simp

theorem pathsOf_mem_split (n : Node) (pre : List Bool) (c : Char) (p : List Bool)
    (h : (c, p) ∈ pathsOf n pre) : ∃ q, p = pre ++ q := by
  rw [pathsOf_eq_map n pre] at h
  simp only [List.mem_map] at h
  obtain ⟨q, _, he⟩ := h
  exact ⟨q.2, (congrArg Prod.snd he).symm⟩

theorem pathsOf_pairwise (n : Node) : ∀ pre,
    (pathsOf n pre).Pairwise
      (fun a b => ¬ a.2 <+: b.2 ∧ ¬ b.2 <+: a.2) := by
  induction n with
  | leaf w s => intro pre; simp [pathsOf]
  | internal w l r ihl ihr =>
    intro pre
    rw [pathsOf]
    apply List.pairwise_append.2
    refine ⟨ihl _, ihr _, ?_⟩
    intro a ha b hb
    obtain ⟨qa, hqa⟩ := pathsOf_mem_split l (pre ++ [false]) a.1 a.2 (by simpa using ha)
    obtain ⟨qb, hqb⟩ := pathsOf_mem_split r (pre ++ [true]) b.1 b.2 (by simpa using hb)
    constructor
    · intro hab
      obtain ⟨z, hz⟩ := hab
      rw [hqa, hqb, List.append_assoc (pre ++ [false]) qa z] at hz
      have h1 := append_single_getElem pre false (qa ++ z)
      have h2 := append_single_getElem pre true qb
      rw [hz, h2] at h1
      exact Bool.noConfusion (Option.some.injEq _ _ ▸ h1)
    · intro hba
      obtain ⟨z, hz⟩ := hba
      rw [hqa, hqb, List.append_assoc (pre ++ [true]) qb z] at hz
      have h1 := append_single_getElem pre true (qb ++ z)
      have h2 := append_single_getElem pre false qa
      rw [hz, h2] at h1
      exact Bool.noConfusion (Option.some.injEq _ _ ▸ h1)

/-! ## The built tree and its table -/

theorem leaf_syms_perm_of_built (f : List Nat) (t : Node)
    (hperm : t.leaves ~ letter_pairs 0 f ++ [(max f.sum 1, ' ')]) :
    leaf_syms t ~ (letter_pairs 0 f).map Prod.snd ++ [' '] := by
  have h := hperm.map Prod.snd
  simpa [leaf_syms] using h

theorem built_table_spec (f : List Nat) (h26 : f.length = 26) (t : Node)
    (hperm : t.leaves ~ letter_pairs 0 f ++ [(max f.sum 1, ' ')]) :
    (∀ c ∈ leaf_syms t, InAlphabet c) ∧
    (leaf_syms t).Nodup ∧
    ∃ tbl, build_encoding_table t = some tbl ∧ tbl.length = 27 ∧
      (∀ c p, (c, p) ∈ pathsOf t [] → tbl[slot c]? = some p) ∧
      (∀ i, i < 27 → (∀ c ∈ leaf_syms t, slot c ≠ i) → tbl[i]? = some []) := by
  have hperm' : t.leaves ~ (initialize_forest f).flatMap Node.leaves := by
    rw [initialize_forest_flatMap]
    exact hperm
  have halpha : ∀ c ∈ leaf_syms t, InAlphabet c := by
    intro c hc
    simp only [leaf_syms, List.mem_map] at hc
    obtain ⟨pair, hpair, hsnd⟩ := hc
    have hmem : pair ∈ (initialize_forest f).flatMap Node.leaves :=
      hperm'.mem_iff.1 hpair
    rw [← hsnd]
    exact initialize_forest_syms_alpha f h26 pair hmem
  have hnodup : (leaf_syms t).Nodup := by
    have hmperm : leaf_syms t ~
        ((initialize_forest f).flatMap Node.leaves).map Prod.snd :=
      hperm'.map Prod.snd
    exact hmperm.symm.nodup (initialize_forest_syms_nodup f h26)
  refine ⟨halpha, hnodup, ?_⟩
  refine ⟨writes (pathsOf t []) (List.replicate 27 []),
    build_encoding_table_eq t halpha, by rw [writes_length]; simp, ?_, ?_⟩
  · intro c p hcp
    have hcsym : c ∈ leaf_syms t := by
      rw [← pathsOf_map_fst t []]
      exact List.mem_map.2 ⟨(c, p), hcp, rfl⟩
    have hslots : ((pathsOf t []).map fun q => slot q.1).Nodup := by
      have he : ((pathsOf t []).map fun q => slot q.1) =
          (leaf_syms t).map slot := by
        rw [← pathsOf_map_fst t [], List.map_map]
        rfl
      rw [he]
      apply List.Nodup.map_on ?_ hnodup
      intro x hx y hy hxy
      exact slot_inj x y (halpha x hx) (halpha y hy) hxy
    have hlt : slot c < 27 := (symbol_slot_cast c (halpha c hcsym)).2
    exact writes_getElem?_written (pathsOf t []) _ c p hcp hslots (by simpa using hlt)
  · intro i hi hnot
    rw [writes_getElem?_not_written (pathsOf t []) _ i ?hq]
    case hq =>
      intro q hq
      apply hnot
      rw [← pathsOf_map_fst t []]
      exact List.mem_map.2 ⟨q, hq, rfl⟩
    exact List.getElem?_replicate_of_lt hi

theorem built_tree_internal (f : List Nat) (t : Node)
    (hperm : t.leaves ~ letter_pairs 0 f ++ [(max f.sum 1, ' ')])
    (hpos : ∃ (j : Nat) (w : Nat), f[j]? = some w ∧ 0 < w) :
    ∃ w l r, t = Node.internal w l r := by
  obtain ⟨j, wv, hj, hw⟩ := hpos
  have hmem := mem_letter_pairs f 0 j wv hj hw
  cases t with
  | leaf wt st =>
    exfalso
    have hlen := hperm.length_eq
    simp only [Node.leaves, List.length_cons, List.length_nil,
      List.length_append] at hlen
    have hnil : letter_pairs 0 f = [] := by
      cases hlp : letter_pairs 0 f with
      | nil => rfl
      | cons a b => rw [hlp] at hlen; simp at hlen
    rw [hnil] at hmem
    exact List.not_mem_nil _ hmem
  | internal wt lt rt => exact ⟨wt, lt, rt, rfl⟩

theorem mem_pathsOf_of_sym (t : Node) (c : Char) (hc : c ∈ leaf_syms t) :
    ∃ p, (c, p) ∈ pathsOf t [] := by
  rw [← pathsOf_map_fst t []] at hc
  obtain ⟨q, hq, he⟩ := List.mem_map.1 hc
  exact ⟨q.2, by rw [← he]; simpa using hq⟩

/-! ## Encoding a string whose symbols have table codes -/

theorem encode_lookup (tbl : List (List Bool)) (h27 : tbl.length = 27)
    (c : Char) (hc : InAlphabet c) :
    (if c = ' ' then pyGet tbl 26 else pyGet tbl ((c.toNat : Int) - 65)) =
      tbl[slot c]? := by
  rcases hc with h | h
  · rw [if_pos h, h]
    have h26 : pyGet tbl ((26 : Nat) : Int) = tbl[26]? :=
      pyGet_of_nat tbl 26 (by omega)
    simp only [Nat.cast_ofNat] at h26
    rw [h26]
    rfl
  · have hne : c ≠ ' ' := by
      intro he
      rw [he] at h
      have h32 : (' ' : Char).toNat = 32 := rfl
      omega
    rw [if_neg hne]
    have hcast : (c.toNat : Int) - 65 = ((slot c : Nat) : Int) := by
      rw [slot, if_neg hne]
      omega
    rw [hcast, pyGet_of_nat tbl (slot c) (by rw [slot, if_neg hne]; omega)]

theorem encode_codes (s : List Char) : ∀ (tbl : List (List Bool)) (t : Node),
    tbl.length = 27 →
    (∀ c ∈ s, InAlphabet c ∧ ∃ p, (c, p) ∈ pathsOf t [] ∧ tbl[slot c]? = some p) →
    ∃ bits, encode s tbl = some bits ∧ CleanBits t bits s := by
  induction s with
  | nil => intro tbl t _ _; exact ⟨[], rfl, CleanBits.nil⟩
  | cons c rest ih =>
    intro tbl t h27 hall
    obtain ⟨hc, p, hp, htbl⟩ := hall c (List.mem_cons_self _ _)
    obtain ⟨bits, he, hclean⟩ := ih tbl t h27
      (fun d hd => hall d (List.mem_cons_of_mem _ hd))
    refine ⟨p ++ bits, ?_, CleanBits.cons c p bits rest hp hclean⟩
    rw [encode, encode_lookup tbl h27 c hc, htbl]
    simp only [he]

/-! ## The round trip -/

theorem roundtrip_of_letter (s : List Char) (hnorm : Normalized s)
    (hletter : ∃ c ∈ s, c ≠ ' ') :
    ∃ f t tbl bits, count_frequencies s = some f ∧
      build_huffman_tree f = some t ∧ build_encoding_table t = some tbl ∧
      encode s tbl = some bits ∧ decode bits t = some s := by
  obtain ⟨f, hf, h26, hiff⟩ := count_frequencies_spec s hnorm
  obtain ⟨t, ht, hperm, _⟩ := build_huffman_tree_spec f
  obtain ⟨halpha, hnodup, tbl, htbl, h27, hwritten, hempty⟩ :=
    built_table_spec f h26 t hperm
  obtain ⟨c0, hc0s, hc0ne⟩ := hletter
  have hc0l : 65 ≤ c0.toNat ∧ c0.toNat ≤ 90 :=
    (hnorm c0 hc0s).resolve_left hc0ne
  have hletter_pos : ∀ c ∈ s, c ≠ ' ' → ∃ w : Nat,
      f[c.toNat - 65]? = some w ∧ 0 < w := by
    intro c hcs hcne
    have hcl : 65 ≤ c.toNat ∧ c.toNat ≤ 90 := (hnorm c hcs).resolve_left hcne
    have hjlt : c.toNat - 65 < 26 := by omega
    have hjf : c.toNat - 65 < f.length := by omega
    have hpos : 0 < f.getD (c.toNat - 65) 0 := by
      rw [hiff _ hjlt]
      have he : Char.ofNat (c.toNat - 65 + 65) = c := by
        have h2 : c.toNat - 65 + 65 = c.toNat := by omega
        rw [h2, Char.ofNat_toNat]
      rw [he]
      exact hcs
    refine ⟨f[c.toNat - 65], List.getElem?_eq_getElem hjf, ?_⟩
    rw [List.getD_eq_getElem?_getD, List.getElem?_eq_getElem hjf] at hpos
    exact hpos
  obtain ⟨w0, hw0, hw0pos⟩ := hletter_pos c0 hc0s hc0ne
  obtain ⟨wr, lr, rr, hroot⟩ := built_tree_internal f t hperm
    ⟨c0.toNat - 65, w0, hw0, hw0pos⟩
  have hall : ∀ c ∈ s, InAlphabet c ∧
      ∃ p, (c, p) ∈ pathsOf t [] ∧ tbl[slot c]? = some p := by
    intro c hcs
    have hcal : InAlphabet c := hnorm c hcs
    have hsym : c ∈ leaf_syms t := by
      have hsyms := leaf_syms_perm_of_built f t hperm
      apply hsyms.mem_iff.2
      rcases hcal with hsp | hl
      · subst hsp
        simp
      · obtain ⟨w, hwf, hwpos⟩ := hletter_pos c hcs (by
          intro he
          rw [he] at hl
          have h32 : (' ' : Char).toNat = 32 := rfl
          omega)
        have hmem := mem_letter_pairs f 0 (c.toNat - 65) w hwf hwpos
        apply List.mem_append.2
        left
        apply List.mem_map.2
        refine ⟨_, hmem, ?_⟩
        show Char.ofNat (0 + (c.toNat - 65) + 65) = c
        have h2 : 0 + (c.toNat - 65) + 65 = c.toNat := by omega
        rw [h2, Char.ofNat_toNat]
    obtain ⟨p, hp⟩ := mem_pathsOf_of_sym t c hsym
    exact ⟨hcal, p, hp, hwritten c p hp⟩
  obtain ⟨bits, hbits, hclean⟩ := encode_codes s tbl t h27 hall
  rw [hroot] at hclean
  exact ⟨f, t, tbl, bits, hf, ht, htbl, hbits, by
    rw [hroot]
    exact decode_cleanbits _ wr lr rr rfl bits s hclean⟩

/-! ## Claim theorems -/

/-- C1 (amended): the round-trip law `decode (encode s table) tree = s` holds
for every normalized string that is empty or contains at least one letter.
It fails for non-empty all-space strings (see the counterexample): there the
tree is the single space leaf, the space code is empty, and the round trip
returns the empty string. -/
theorem roundtrip_amended (s : List Char)
    (hnorm : ∀ c ∈ s, c = ' ' ∨ (65 ≤ c.toNat ∧ c.toNat ≤ 90))
    (hne : s = [] ∨ ∃ c ∈ s, c ≠ ' ') :
    ∃ f t tbl bits, count_frequencies s = some f ∧
      build_huffman_tree f = some t ∧ build_encoding_table t = some tbl ∧
      encode s tbl = some bits ∧ decode bits t = some s := by
  rcases hne with hnil | hletter
  · subst hnil
    exact ⟨List.replicate 26 0, Node.leaf 1 ' ', List.replicate 27 [], [],
      by decide, by decide, by decide, rfl, rfl⟩
  · exact roundtrip_of_letter s hnorm hletter

/-- C1 witness: the round trip at the concrete normalized string "A ". -/
theorem roundtrip_witness :
    ∃ f t tbl bits, count_frequencies ['A', ' '] = some f ∧
      build_huffman_tree f = some t ∧ build_encoding_table t = some tbl ∧
      encode ['A', ' '] tbl = some bits ∧ decode bits t = some ['A', ' '] :=
  roundtrip_amended ['A', ' '] (by decide) (Or.inr ⟨'A', by decide, by decide⟩)

/-- C1 counterexample: for the normalized string " " (one space, no letter)
the whole pipeline succeeds but the round trip returns "" instead of " ":
the claim as stated is false. -/
theorem roundtrip_counterexample :
    count_frequencies [' '] = some (List.replicate 26 0) ∧
    build_huffman_tree (List.replicate 26 0) = some (Node.leaf 1 ' ') ∧
    build_encoding_table (Node.leaf 1 ' ') = some (List.replicate 27 []) ∧
    encode [' '] (List.replicate 27 []) = some [] ∧
    decode [] (Node.leaf 1 ' ') = some [] ∧
    some ([] : List Char) ≠ some [' '] := by
  refine ⟨by decide, by decide, by decide, by decide, rfl, by decide⟩

/-- C2 (amended): for the all-space input "   ", `count_frequencies` returns
26 zeros, `initialize_forest` yields only the space leaf of weight 1,
`build_huffman_tree` terminates with that single leaf, and `encode` produces
the empty bit-string — but decoding it returns the empty string, not the
original spaces (the round-trip part of the claim fails, see the
counterexample). -/
theorem all_space_amended :
    count_frequencies ("   ".toList) = some (List.replicate 26 0) ∧
    initialize_forest (List.replicate 26 0) = [Node.leaf 1 ' '] ∧
    build_huffman_tree (List.replicate 26 0) = some (Node.leaf 1 ' ') ∧
    build_encoding_table (Node.leaf 1 ' ') = some (List.replicate 27 []) ∧
    encode ("   ".toList) (List.replicate 27 []) = some [] ∧
    decode [] (Node.leaf 1 ' ') = some [] := by
  refine ⟨by decide, by decide, by decide, by decide, by decide, rfl⟩

/-- C2 counterexample: the encode/decode round trip on "   " yields "",
not the original space-only string, so the claim's last conjunct is false. -/
theorem all_space_counterexample :
    count_frequencies ("   ".toList) = some (List.replicate 26 0) ∧
    build_huffman_tree (List.replicate 26 0) = some (Node.leaf 1 ' ') ∧
    build_encoding_table (Node.leaf 1 ' ') = some (List.replicate 27 []) ∧
    encode ("   ".toList) (List.replicate 27 []) = some [] ∧
    decode [] (Node.leaf 1 ' ') ≠ some ("   ".toList) := by
  refine ⟨by decide, by decide, by decide, by decide, by decide⟩

/-- C3 (amended): `decode` does not fail on a bit-string that ends mid-path.
On any tree with an internal root, appending an incomplete root-to-leaf path
to a cleanly decodable bit-string leaves decode's output unchanged — the
dangling bits are silently dropped — and decode succeeds (`some`) on every
bit-string whatsoever.  The claimed decoding error does not exist (see the
counterexample). -/
theorem decode_malformed_amended (w : Nat) (l r : Node)
    (bits : List Bool) (s : List Char)
    (hclean : CleanBits (Node.internal w l r) bits s)
    (c : Char) (p p' : List Bool)
    (hp : (c, p) ∈ pathsOf (Node.internal w l r) [])
    (hpfx : p' <+: p) (hne : p' ≠ p) :
    decode (bits ++ p') (Node.internal w l r) = some s ∧
    ∀ bits2 : List Bool, ∃ out, decode bits2 (Node.internal w l r) = some out := by
  constructor
  · induction hclean with
    | nil =>
      show decode ([] ++ p') _ = some []
      rw [List.nil_append]
      exact decode_loop_strict_pfx _ _ w l r rfl c p hp p' hpfx hne
    | cons c0 p0 bits0 s0 hmem _ ih =>
      show decode ((p0 ++ bits0) ++ p') _ = some (c0 :: s0)
      rw [List.append_assoc]
      unfold decode at ih ⊢
      rw [decode_loop_code _ _ w l r rfl c0 p0 hmem (bits0 ++ p'), ih]
      rfl
  · intro bits2
    exact decode_loop_total _ w l r rfl bits2 _ w l r rfl

/-- C3 witness: the amended statement at a concrete tree (built from the
frequencies of "ABB"): the dangling bit "1" after the empty clean part is
dropped and decode succeeds on every input. -/
theorem decode_malformed_witness :
    decode ([] ++ [true]) (Node.internal 6 (Node.leaf 3 ' ')
      (Node.internal 3 (Node.leaf 1 'A') (Node.leaf 2 'B'))) = some [] ∧
    ∀ bits2 : List Bool, ∃ out, decode bits2 (Node.internal 6 (Node.leaf 3 ' ')
      (Node.internal 3 (Node.leaf 1 'A') (Node.leaf 2 'B'))) = some out :=
  decode_malformed_amended 6 (Node.leaf 3 ' ')
    (Node.internal 3 (Node.leaf 1 'A') (Node.leaf 2 'B')) [] []
    CleanBits.nil 'A' [true, false] [true] (by decide) (by decide) (by decide)

/-- C3 counterexample: on the tree built from the frequencies of "ABB", the
bit-string "1" stops at an internal node (it is a strict prefix of both
letter codes), yet decode succeeds and returns "" — it silently drops the
incomplete path instead of failing with a decoding error. -/
theorem decode_malformed_counterexample :
    build_huffman_tree ([1, 2] ++ List.replicate 24 0) =
      some (Node.internal 6 (Node.leaf 3 ' ')
        (Node.internal 3 (Node.leaf 1 'A') (Node.leaf 2 'B'))) ∧
    decode [true] (Node.internal 6 (Node.leaf 3 ' ')
      (Node.internal 3 (Node.leaf 1 'A') (Node.leaf 2 'B'))) = some [] := by
  refine ⟨by decide, rfl⟩

/-- C4: for every 26-entry frequency table, `build_huffman_tree` succeeds
and the root's weight equals the sum of all leaf weights, which equals
(sum of the 26 letter frequencies) + max(sum, 1). -/
theorem weight_invariant (f : List Nat) (_h26 : f.length = 26) :
    ∃ t, build_huffman_tree f = some t ∧
      t.get_frequency = leaf_weight t ∧
      t.get_frequency = f.sum + max f.sum 1 := by
  obtain ⟨t, ht, hperm, hw⟩ := build_huffman_tree_spec f
  unfold weight_ok at hw
  refine ⟨t, ht, hw, ?_⟩
  rw [hw]
  unfold leaf_weight
  have hs := (hperm.map Prod.fst).sum_eq
  rw [hs, List.map_append, List.sum_append, letter_pairs_weight_sum f 0]
  simp

/-- C4 witness: the weight invariant at the frequency table of "ABB"
(letter sum 3, space weight 3, root weight 6). -/
theorem weight_invariant_witness :
    ∃ t, build_huffman_tree ([1, 2] ++ List.replicate 24 0) = some t ∧
      t.get_frequency = leaf_weight t ∧
      t.get_frequency = ([1, 2] ++ List.replicate 24 0 : List Nat).sum +
        max ([1, 2] ++ List.replicate 24 0 : List Nat).sum 1 :=
  weight_invariant ([1, 2] ++ List.replicate 24 0) (by decide)

/-- C5: prefix-free law.  In the table built from a Huffman tree constructed
from a 26-entry frequency table, the codes of two distinct symbols present
in the tree are never prefixes of one another. -/
theorem table_prefix_free (f : List Nat) (h26 : f.length = 26) (t : Node)
    (ht : build_huffman_tree f = some t) (tbl : List (List Bool))
    (htbl : build_encoding_table t = some tbl) :
    ∀ c d, c ∈ leaf_syms t → d ∈ leaf_syms t → c ≠ d →
    ∀ pc pd, tbl[slot c]? = some pc → tbl[slot d]? = some pd →
    ¬ pc <+: pd := by
  obtain ⟨t', ht', hperm, _⟩ := build_huffman_tree_spec f
  rw [ht] at ht'
  injection ht' with hte
  subst hte
  obtain ⟨halpha, hnodup, tbl', htbl', h27, hwritten, hempty⟩ :=
    built_table_spec f h26 t hperm
  rw [htbl] at htbl'
  injection htbl' with htble
  subst htble
  intro c d hc hd hne pc pd hpc hpd
  obtain ⟨qc, hqc⟩ := mem_pathsOf_of_sym t c hc
  obtain ⟨qd, hqd⟩ := mem_pathsOf_of_sym t d hd
  have hqc' := hwritten c qc hqc
  have hqd' := hwritten d qd hqd
  rw [hpc] at hqc'
  rw [hpd] at hqd'
  injection hqc' with hec
  injection hqd' with hed
  subst hec hed
  have hpw := pathsOf_pairwise t []
  have hsymm : Symmetric (fun a b : Char × List Bool =>
      ¬ a.2 <+: b.2 ∧ ¬ b.2 <+: a.2) := fun a b h => ⟨h.2, h.1⟩
  have hentry : ((c, pc) : Char × List Bool) ≠ (d, pd) := by
    intro he
    exact hne (congrArg Prod.fst he)
  exact ((hpw.forall hsymm) hqc hqd hentry).1

/-- C5 witness: in the table of the tree built from the frequencies of
"AB", the code of A ("10") is not a prefix of the code of B ("11"). -/
theorem table_prefix_free_witness :
    ¬ ([true, false] : List Bool) <+: [true, true] :=
  table_prefix_free ([1, 1] ++ List.replicate 24 0) (by decide)
    (Node.internal 4 (Node.leaf 2 ' ')
      (Node.internal 2 (Node.leaf 1 'A') (Node.leaf 1 'B')))
    (by decide)
    [[true, false], [true, true], [], [], [], [], [], [], [], [], [], [], [],
      [], [], [], [], [], [], [], [], [], [], [], [], [], [false]]
    (by decide) 'A' 'B' (by decide) (by decide) (by decide)
    [true, false] [true, true] (by decide) (by decide)

/-- C6: `get_smallest` removes and returns the node of minimum weight,
choosing the lowest index among ties (every earlier node is strictly
heavier), and tree building is deterministic: the same frequency table
always yields the same encoding table. -/
theorem get_smallest_deterministic (forest : List Node) (h : forest ≠ []) :
    (∃ i n, forest[i]? = some n ∧
      get_smallest forest = some (n, forest.take i ++ forest.drop (i + 1)) ∧
      (∀ m ∈ forest, n.get_frequency ≤ m.get_frequency) ∧
      (∀ j m, j < i → forest[j]? = some m →
        n.get_frequency < m.get_frequency)) ∧
    (∀ f : List Nat, (build_huffman_tree f).bind build_encoding_table =
      (build_huffman_tree f).bind build_encoding_table) := by
  refine ⟨?_, fun f => rfl⟩
  obtain ⟨n, rest, hgs, hget, hrest, _, _, hmin, hfirst⟩ := get_smallest_spec forest h
  exact ⟨smallest_index forest, n, hget, by rw [hgs, hrest], hmin, hfirst⟩

/-- C6 witness: on the two-node forest [A(2), B(1)] the minimum scan picks
B at index 1; applied through the theorem at that concrete forest. -/
theorem get_smallest_deterministic_witness :
    (∃ i n, ([Node.leaf 2 'A', Node.leaf 1 'B'] : List Node)[i]? = some n ∧
      get_smallest [Node.leaf 2 'A', Node.leaf 1 'B'] =
        some (n, ([Node.leaf 2 'A', Node.leaf 1 'B'] : List Node).take i ++
          ([Node.leaf 2 'A', Node.leaf 1 'B'] : List Node).drop (i + 1)) ∧
      (∀ m ∈ ([Node.leaf 2 'A', Node.leaf 1 'B'] : List Node),
        n.get_frequency ≤ m.get_frequency) ∧
      (∀ j m, j < i → ([Node.leaf 2 'A', Node.leaf 1 'B'] : List Node)[j]? = some m →
        n.get_frequency < m.get_frequency)) ∧
    (∀ f : List Nat, (build_huffman_tree f).bind build_encoding_table =
      (build_huffman_tree f).bind build_encoding_table) :=
  get_smallest_deterministic [Node.leaf 2 'A', Node.leaf 1 'B'] (by decide)

/-- C7 (amended): `encode` raises an index error only for characters whose
code point is below 38 or at least 92; characters with code points 38–64 or
91 are outside the alphabet too, but Python's negative indexing (and index
26) silently encodes them with another symbol's table entry — see the
counterexample, where "@" is encoded with the space's code. -/
theorem encode_reject_amended (ch : Char) (hne : ch ≠ ' ')
    (hbad : ch.toNat < 38 ∨ 92 ≤ ch.toNat)
    (tbl : List (List Bool)) (h27 : tbl.length = 27) (s1 s2 : List Char) :
    encode (s1 ++ ch :: s2) tbl = none := by
  induction s1 with
  | nil =>
    rw [List.nil_append, encode]
    have hnone : pyGet tbl ((ch.toNat : Int) - 65) = none := by
      unfold pyGet pyIdx
      rw [h27]
      rcases hbad with h | h
      · rw [if_neg (by omega), if_neg (by omega)]
        rfl
      · rw [if_pos (by omega), if_neg (by omega)]
        rfl
    rw [if_neg hne, hnone]
  | cons c rest ih =>
    rw [List.cons_append, encode]
    cases hl : (if c = ' ' then pyGet tbl 26
        else pyGet tbl ((c.toNat : Int) - 65)) with
    | none => simp only [hl]
    | some code => simp only [hl, ih]

/-- C7 witness: encoding "a" (code point 97 ≥ 92) fails on a 27-entry
table. -/
theorem encode_reject_witness :
    encode ([] ++ 'a' :: []) (List.replicate 27 ([] : List Bool)) = none :=
  encode_reject_amended 'a' (by decide) (by decide)
    (List.replicate 27 []) (by decide) [] []

/-- C7 counterexample: "@" is outside the 27-symbol alphabet, yet encoding
it with the table built from the input "A" succeeds — `ord("@") - ord("A")`
is -1, which Python resolves to index 26, the space's code "1". -/
theorem encode_reject_counterexample :
    (((count_frequencies ['A']).bind build_huffman_tree).bind
        build_encoding_table).bind (fun tbl => encode ['@'] tbl) =
      some [true] := by
  decide

/-! ## Normalization -/

theorem pyUpper_ascii (c0 : Char) (h : c0.toNat < 128) (c : Char)
    (hc : c ∈ pyUpper c0) :
    (c = c0 ∧ ¬(97 ≤ c0.toNat ∧ c0.toNat ≤ 122)) ∨
    (65 ≤ c.toNat ∧ c.toNat ≤ 90) := by
  unfold pyUpper at hc
  by_cases h1 : (97 ≤ c0.toNat && c0.toNat ≤ 122) = true
  · rw [if_pos h1] at hc
    simp only [List.mem_singleton] at hc
    simp only [Bool.and_eq_true, decide_eq_true_eq] at h1
    right
    subst hc
    have he : c0.toNat - 32 = c0.toNat - 97 + 65 := by omega
    rw [he, char_toNat_add_65 _ (by omega)]
    omega
  · rw [if_neg h1] at hc
    simp only [Bool.and_eq_true, decide_eq_true_eq, not_and, Classical.not_imp,
      Nat.not_le] at h1
    rw [if_neg (by simp only [beq_iff_eq]; omega),
      if_neg (by simp only [beq_iff_eq]; omega),
      if_neg (by
        simp only [Bool.and_eq_true, decide_eq_true_eq, bne_iff_ne]
        omega),
      if_neg (by simp only [beq_iff_eq]; omega)] at hc
    simp only [List.mem_singleton] at hc
    left
    exact ⟨hc, by omega⟩

/-- C8 (amended): for ASCII input, `filter_uppercase_and_spaces` returns
only uppercase A–Z and spaces, and the concrete example normalizes to
"HELLO WORLD " — with a trailing space, because the space before "123" is
kept while the digits are dropped.  For non-ASCII input the claim fails:
alphabetic characters outside ASCII are uppercased and kept (see the
counterexample with "é"). -/
theorem normalization_amended (s : List Char) (hascii : ∀ c ∈ s, c.toNat < 128) :
    (∀ c ∈ filter_uppercase_and_spaces s,
      c = ' ' ∨ (65 ≤ c.toNat ∧ c.toNat ≤ 90)) ∧
    filter_uppercase_and_spaces ("Hello, World! 123".toList) =
      "HELLO WORLD ".toList := by
  refine ⟨?_, by decide⟩
  intro c hc
  unfold filter_uppercase_and_spaces at hc
  rw [List.mem_filter] at hc
  obtain ⟨hmem, hkeep⟩ := hc
  rw [List.mem_flatMap] at hmem
  obtain ⟨c0, hc0, hcup⟩ := hmem
  have hc0lt := hascii c0 hc0
  simp only [Bool.or_eq_true, beq_iff_eq] at hkeep
  rcases hkeep with halpha | hsp
  · rcases pyUpper_ascii c0 hc0lt c hcup with ⟨hec, hnl⟩ | hrange
    · right
      subst hec
      unfold pyIsAlpha at halpha
      simp only [Bool.or_eq_true, Bool.and_eq_true, decide_eq_true_eq,
        beq_iff_eq] at halpha
      rcases halpha with ((((((h | h) | h) | h) | h) | h) | h) | h <;> omega
    · exact Or.inr hrange
  · exact Or.inl hsp

/-- C8 witness: the amended normalization statement applied at the ASCII
input "abc": the kept character A is an uppercase letter. -/
theorem normalization_witness :
    'A' ∈ filter_uppercase_and_spaces ("abc".toList) ∧
    ('A' = ' ' ∨ (65 ≤ 'A'.toNat ∧ 'A'.toNat ≤ 90)) :=
  ⟨by decide, (normalization_amended ("abc".toList) (by decide)).1 'A' (by decide)⟩

/-- C8 counterexample: the claim's literal example is wrong — the output
keeps a trailing space — and on the non-ASCII input "é" the output is "É"
(U+00C9), an alphabetic character outside A–Z and space. -/
theorem normalization_counterexample :
    filter_uppercase_and_spaces ("Hello, World! 123".toList) ≠
      "HELLO WORLD".toList ∧
    filter_uppercase_and_spaces [Char.ofNat 233] = [Char.ofNat 201] ∧
    ¬ (Char.ofNat 201 = ' ' ∨
       (65 ≤ (Char.ofNat 201).toNat ∧ (Char.ofNat 201).toNat ≤ 90)) := by
  refine ⟨by decide, by decide, by decide⟩

/-- C9 (amended): the literal "HELLO WORLD" scenario.  Normalization leaves
it unchanged; the letter counts are H=1, E=1, L=3, O=2, W=1, R=1, D=1 and 0
elsewhere; the space leaf weight is max(10,1) = 10 — the claim's value 11
miscounts the ten letters (see the counterexample) — the round trip
reproduces the string exactly, and the space's one-bit code is no longer
than the code of any symbol present in the tree. -/
theorem hello_world_amended :
    filter_uppercase_and_spaces ("HELLO WORLD".toList) = "HELLO WORLD".toList ∧
    count_frequencies ("HELLO WORLD".toList) =
      some [0, 0, 0, 1, 1, 0, 0, 1, 0, 0, 0, 3, 0, 0, 2, 0, 0, 1, 0, 0, 0, 0,
        1, 0, 0, 0] ∧
    max ([0, 0, 0, 1, 1, 0, 0, 1, 0, 0, 0, 3, 0, 0, 2, 0, 0, 1, 0, 0, 0, 0,
      1, 0, 0, 0] : List Nat).sum 1 = 10 ∧
    (initialize_forest [0, 0, 0, 1, 1, 0, 0, 1, 0, 0, 0, 3, 0, 0, 2, 0, 0, 1,
      0, 0, 0, 0, 1, 0, 0, 0]).getLast? = some (Node.leaf 10 ' ') ∧
    ∃ t tbl bits,
      build_huffman_tree [0, 0, 0, 1, 1, 0, 0, 1, 0, 0, 0, 3, 0, 0, 2, 0, 0,
        1, 0, 0, 0, 0, 1, 0, 0, 0] = some t ∧
      build_encoding_table t = some tbl ∧
      encode ("HELLO WORLD".toList) tbl = some bits ∧
      decode bits t = some ("HELLO WORLD".toList) ∧
      tbl[26]? = some [false] ∧
      ∀ q ∈ pathsOf t [], ([false] : List Bool).length ≤ q.2.length := by
  refine ⟨by decide, by decide, by decide, by decide,
    Node.internal 20 (Node.leaf 10 ' ') (Node.internal 10
      (Node.internal 4 (Node.internal 2 (Node.leaf 1 'D') (Node.leaf 1 'E'))
        (Node.internal 2 (Node.leaf 1 'H') (Node.leaf 1 'R')))
      (Node.internal 6 (Node.leaf 3 'L')
        (Node.internal 3 (Node.leaf 1 'W') (Node.leaf 2 'O')))),
    [[], [], [], [true, false, false, false], [true, false, false, true], [],
      [], [true, false, true, false], [], [], [], [true, true, false], [], [],
      [true, true, true, true], [], [], [true, false, true, true], [], [], [],
      [], [true, true, true, false], [], [], [], [false]],
    [true, false, true, false, true, false, false, true, true, true, false,
      true, true, false, true, true, true, true, false, true, true, true,
      false, true, true, true, true, true, false, true, true, true, true,
      false, true, false, false, false],
    by decide, by decide, by decide, by decide, by decide, by decide⟩

/-- C9 counterexample: the space leaf weight for "HELLO WORLD" is
max(10,1) = 10, not the claimed max(11,1) = 11 — the string has ten
letters, not eleven (the eleventh character is the uncounted space). -/
theorem hello_world_counterexample :
    ((count_frequencies ("HELLO WORLD".toList)).map fun f => max f.sum 1) =
      some 10 ∧
    ((count_frequencies ("HELLO WORLD".toList)).map fun f => max f.sum 1) ≠
      some 11 := by
  refine ⟨by decide, by decide⟩

/-- C10 (implicit): every letter with frequency zero has no leaf in the
tree, keeps the empty string as its table entry, and `encode` appends zero
bits for each of its occurrences instead of failing. -/
theorem zero_freq_empty_code (f : List Nat) (h26 : f.length = 26)
    (i : Nat) (hi : i < 26) (hz : f[i]? = some 0)
    (t : Node) (ht : build_huffman_tree f = some t)
    (tbl : List (List Bool)) (htbl : build_encoding_table t = some tbl) :
    tbl[i]? = some [] ∧
    ∀ rest, encode (Char.ofNat (i + 65) :: rest) tbl = encode rest tbl := by
  obtain ⟨t', ht', hperm, _⟩ := build_huffman_tree_spec f
  rw [ht] at ht'
  injection ht' with hte
  subst hte
  obtain ⟨halpha, hnodup, tbl', htbl', h27, hwritten, hempty⟩ :=
    built_table_spec f h26 t hperm
  rw [htbl] at htbl'
  injection htbl' with htble
  subst htble
  have hnotsym : ∀ c ∈ leaf_syms t, slot c ≠ i := by
    intro c hc hslot
    have hsyms := leaf_syms_perm_of_built f t hperm
    have hc' := hsyms.mem_iff.1 hc
    rcases List.mem_append.1 hc' with hc'' | hc''
    · obtain ⟨pair, hpair, hsnd⟩ := List.mem_map.1 hc''
      obtain ⟨j, w, hj, hw, hpe⟩ := letter_pairs_mem f 0 pair hpair
      have hjlen : j < f.length := by
        by_contra hge
        rw [List.getElem?_eq_none (Nat.le_of_not_lt hge)] at hj
        exact Option.noConfusion hj
      rw [hpe] at hsnd
      have hslotj : slot c = j := by
        rw [← hsnd, slot, if_neg (char_letter_ne_space (0 + j) (by omega)),
          char_toNat_add_65 (0 + j) (by omega)]
        omega
      rw [hslotj] at hslot
      subst hslot
      rw [hz] at hj
      injection hj with hj0
      omega
    · simp only [List.mem_singleton] at hc''
      rw [hc''] at hslot
      have hs26 : slot ' ' = 26 := rfl
      omega
  refine ⟨hempty i (by omega) hnotsym, ?_⟩
  intro rest
  have hch : (Char.ofNat (i + 65)).toNat = i + 65 := char_toNat_add_65 i (by omega)
  have hne : Char.ofNat (i + 65) ≠ ' ' := char_letter_ne_space i (by omega)
  rw [encode, if_neg hne]
  have hcast : ((Char.ofNat (i + 65)).toNat : Int) - 65 = ((i : Nat) : Int) := by
    rw [hch]
    omega
  rw [hcast, pyGet_of_nat tbl i (by omega), hempty i (by omega) hnotsym]
  cases he : encode rest tbl with
  | none => simp only [he]
  | some tail => simp only [he, List.nil_append]

/-- C10 witness: for the frequencies of "A", the letter B (index 1) has
frequency zero, its table entry is the empty code, and encoding "B" adds
no bits. -/
theorem zero_freq_empty_code_witness :
    ([[false], [], [], [], [], [], [], [], [], [], [], [], [], [], [], [],
      [], [], [], [], [], [], [], [], [], [], [true]] :
        List (List Bool))[1]? = some [] ∧
    encode (Char.ofNat (1 + 65) :: ['A'])
        [[false], [], [], [], [], [], [], [], [], [], [], [], [], [], [], [],
          [], [], [], [], [], [], [], [], [], [], [true]] =
      encode ['A']
        [[false], [], [], [], [], [], [], [], [], [], [], [], [], [], [], [],
          [], [], [], [], [], [], [], [], [], [], [true]] :=
  ⟨(zero_freq_empty_code ([1] ++ List.replicate 25 0) (by decide) 1 (by decide)
      (by decide)
      (Node.internal 2 (Node.leaf 1 'A') (Node.leaf 1 ' ')) (by decide)
      _ (by decide)).1,
   (zero_freq_empty_code ([1] ++ List.replicate 25 0) (by decide) 1 (by decide)
      (by decide)
      (Node.internal 2 (Node.leaf 1 'A') (Node.leaf 1 ' ')) (by decide)
      _ (by decide)).2 ['A']⟩
